import Mathlib

/-!
# Verification of the ExoScope frontend (HuntingExoPlanet)

Shallow embedding of the repository's TypeScript sources:

* `src/pages/Explorer.tsx` — CSV upload parsing (`handleFile`), status counts,
  status distribution, orbital-period histogram, summary statistics (`med`).
* `src/data/models.ts` — the hard-coded per-mission `models` and
  `modelSpecifications` records.

JavaScript numbers are modelled as exact rationals (`ℚ`) wrapped in `JSNum`,
which also carries the `Infinity`, `-Infinity` and `NaN` values; double
rounding and overflow-to-infinity are outside the model.  The backend ML
pipeline (SchemaRegistry, Evaluator, Explainer) is not part of the frontend
sources; where a property depends on it, the definition is modelled from the
spec and says so in its doc comment.
-/

namespace Exoscope

/-- A JavaScript number: an exact rational, an infinity, or `NaN`. -/
inductive JSNum where
  | finite (q : ℚ)
  | inf
  | negInf
  | nan
deriving DecidableEq, Repr

/-- True exactly on finite JS numbers (`Number.isFinite`). -/
def JSNum.isFinite : JSNum → Bool
  | .finite _ => true
  | _ => false

/-- Value of a list of decimal digit characters. -/
def digitsVal (cs : List Char) : ℕ :=
  cs.foldl (fun a c => a * 10 + (c.toNat - 48)) 0

/-- Value of one hexadecimal digit character. -/
def hexDigitVal (c : Char) : ℕ :=
  if c.isDigit then c.toNat - 48
  else if 'a' ≤ c ∧ c ≤ 'f' then c.toNat - 87
  else c.toNat - 55

/-- Value of a digit list in radix `r`. -/
def radixVal (r : ℕ) (cs : List Char) : ℕ :=
  cs.foldl (fun a c => a * r + hexDigitVal c) 0

/-- Hexadecimal digit test. -/
def isHexDigit (c : Char) : Bool :=
  c.isDigit || ('a' ≤ c && c ≤ 'f') || ('A' ≤ c && c ≤ 'F')

/-- Parse an unsigned JS decimal literal: digits, an optional fraction,
an optional exponent; the whole input must be consumed. -/
def parseDec (cs : List Char) : Option ℚ :=
  let ip := cs.takeWhile (·.isDigit)
  let r1 := cs.dropWhile (·.isDigit)
  let fp : List Char := match r1 with
    | '.' :: t => t.takeWhile (fun c : Char => c.isDigit)
    | _ => []
  let r2 : List Char := match r1 with
    | '.' :: t => t.dropWhile (fun c : Char => c.isDigit)
    | _ => r1
  if ip.isEmpty && fp.isEmpty then none else
  let m : ℕ := digitsVal ip * 10 ^ fp.length + digitsVal fp
  match r2 with
  | [] => some (mkRat m (10 ^ fp.length))
  | c :: t =>
    if c = 'e' ∨ c = 'E' then
      let negExp : Bool := match t with
        | '-' :: _ => true
        | _ => false
      let t2 := match t with
        | '+' :: u => u
        | '-' :: u => u
        | _ => t
      let ed := t2.takeWhile (fun c : Char => c.isDigit)
      let r3 := t2.dropWhile (fun c : Char => c.isDigit)
      if ed.isEmpty || !r3.isEmpty then none
      else if negExp then some (mkRat m (10 ^ fp.length * 10 ^ digitsVal ed))
      else some (mkRat (m * 10 ^ digitsVal ed) (10 ^ fp.length))
    else none

/-- Parse a radix-prefixed literal body (`0x…`, `0o…`, `0b…`): every
character must be a digit of the radix and at least one must be present. -/
def parseRadix (pred : Char → Bool) (r : ℕ) (ds : List Char) : Option ℚ :=
  if ds.isEmpty || ds.any (fun c => !(pred c)) then none
  else some (mkRat (radixVal r ds) 1)

/-- Parse an unsigned JS numeric literal (radix-prefixed or decimal). -/
def parseUnsigned (cs : List Char) : Option ℚ :=
  match cs with
  | '0' :: c :: ds =>
    if c = 'x' ∨ c = 'X' then parseRadix isHexDigit 16 ds
    else if c = 'o' ∨ c = 'O' then parseRadix (fun d => '0' ≤ d && d ≤ '7') 8 ds
    else if c = 'b' ∨ c = 'B' then parseRadix (fun d => d = '0' || d = '1') 2 ds
    else parseDec cs
  | _ => parseDec cs

/-- Remove leading and trailing whitespace from a character list (the
`trim()` steps of the source; JS and Lean agree on the ASCII whitespace
that occurs in CSV text). -/
def jsTrim (cs : List Char) : List Char :=
  ((cs.dropWhile Char.isWhitespace).reverse.dropWhile Char.isWhitespace).reverse

/-- The JS `Number` conversion on an already-trimmed character list: the
empty input is `0`, the infinities are recognised, otherwise an optionally
signed numeric literal; anything else is `NaN`. -/
def jsNumberL (cs : List Char) : JSNum :=
  if cs = [] then .finite 0
  else if cs = "Infinity".toList ∨ cs = "+Infinity".toList then .inf
  else if cs = "-Infinity".toList then .negInf
  else
    match cs with
    | '+' :: t =>
      match parseDec t with
      | some q => .finite q
      | none => .nan
    | '-' :: t =>
      match parseDec t with
      | some q => .finite (-q)
      | none => .nan
    | t =>
      match parseUnsigned t with
      | some q => .finite q
      | none => .nan

/-- The JS `Number(string)` conversion (`Number` itself trims its input). -/
def jsNumber (s : String) : JSNum :=
  jsNumberL (jsTrim s.toList)

/-- ASCII lower-casing, the `toLowerCase()` of the source. -/
def toLowerStr (s : String) : String :=
  String.mk (s.toList.map Char.toLower)

/-- A parsed CSV cell as stored by `Explorer.handleFile`: a JS number when the
trimmed raw text is non-empty and `Number` of it is not `NaN`, otherwise the
trimmed raw string itself. -/
inductive Cell where
  | num (j : JSNum)
  | str (s : String)
deriving DecidableEq, Repr

/-- An uploaded row, as the sequence of `obj[h] = …` assignments performed by
`handleFile` (one per header, in header order).  The JS object keeps, for a
duplicated header name, the last assignment; `getField` reads accordingly. -/
abbrev Record := List (String × Cell)

/-- Property access `r[k]`: the value of the last assignment to key `k`,
`none` for `undefined`. -/
def getField (r : Record) (k : String) : Option Cell :=
  r.reverse.lookup k

/-- Split a character list at every occurrence of a separator character
(the `split(',')` and `split('\n')` of the source); like JS `split`, the
result always has one more group than there are separators. -/
def splitOnChar (sep : Char) (cs : List Char) : List (List Char) :=
  cs.foldr (fun c acc =>
    match acc with
    | g :: gs => if c = sep then [] :: g :: gs else (c :: g) :: gs
    | [] => [[c]]) [[]]

/-- The per-cell value computation of `handleFile`:
`raw = (cells[i] ?? '').trim(); obj[h] = raw !== '' && !Number.isNaN(Number(raw)) ? Number(raw) : raw`. -/
def parseCell (rawCell : List Char) : Cell :=
  let raw := jsTrim rawCell
  let num := jsNumberL raw
  if raw ≠ [] ∧ num ≠ .nan then .num num else .str (String.mk raw)

/-- One data line of `handleFile`: split on commas, then for header `i`
assign `parseCell` of the `i`-th cell (missing cells read as `''`). -/
def parseLine (headers : List String) (line : List Char) : Record :=
  (headers.enum).map (fun p => (p.2, parseCell ((splitOnChar ',' line).getD p.1 [])))

/-- Remove one trailing carriage return (the `\r?` of the line separator). -/
def stripCR (l : List Char) : List Char :=
  if l.getLast? = some '\r' then l.dropLast else l

/-- Model of `text.split(/\r?\n/)`: split on newlines, each separator
optionally consuming a preceding carriage return.  A carriage return at the
very end of the text is not a separator and is kept. -/
def splitNewlines (text : String) : List (List Char) :=
  let parts := splitOnChar '\n' text.toList
  parts.dropLast.map stripCR ++ parts.drop (parts.length - 1)

/-- The non-empty lines of the upload: `text.split(/\r?\n/).filter(Boolean)`. -/
def csvLines (text : String) : List (List Char) :=
  (splitNewlines text).filter (fun l => l ≠ [])

/-- The header row: `lines[0].split(',').map(h => h.trim())`. -/
def headersOf (lines : List (List Char)) : List String :=
  (splitOnChar ',' (lines.headD [])).map (fun h => String.mk (jsTrim h))

/-- The `rows` computed by `Explorer.handleFile`: empty when fewer than two
non-empty lines, otherwise one record per data line, in file order. -/
def handleFileRows (text : String) : List Record :=
  let lines := csvLines text
  if lines.length < 2 then []
  else (lines.drop 1).map (parseLine (headersOf lines))

/-- JS `String(v)` on a stored number.  Integral values render as their
decimal digits; the infinities render as in JS.  Rendering of non-integral
numbers is modelled schematically (no claim depends on it), and `NaN` never
reaches a stored cell. -/
def numToString (j : JSNum) : String :=
  match j with
  | .inf => "Infinity"
  | .negInf => "-Infinity"
  | .nan => "NaN"
  | .finite q =>
    if q.den = 1 then toString q.num else toString q.num ++ "/" ++ toString q.den

/-- JS expression `String(r.status ?? 'unknown')`: `'unknown'` for an absent field,
otherwise the JS string conversion of the stored cell. -/
def statusString (c : Option Cell) : String :=
  match c with
  | none => "unknown"
  | some (.str s) => s
  | some (.num j) => numToString j

/-- The key a row is counted under: `String(r.status ?? 'unknown').toLowerCase()`. -/
def statusKey (r : Record) : String :=
  toLowerStr (statusString (getField r "status"))

/-- The initial `counts` object of `statusCounts`. -/
def baseCounts : List (String × ℕ) :=
  [("confirmed", 0), ("candidate", 0), ("false_positive", 0), ("unknown", 0)]

/-- JS update `counts[s] = (counts[s] ?? 0) + 1` on a JS object modelled as an
insertion-ordered association list with unique keys. -/
def bump (c : List (String × ℕ)) (k : String) : List (String × ℕ) :=
  if c.any (fun p => p.1 = k) then
    c.map (fun p => if p.1 = k then (p.1, p.2 + 1) else p)
  else c ++ [(k, 1)]

/-- Embedding of `Explorer.statusCounts`: the base keys at zero, then one increment per
uploaded row under its `statusKey`; the base object when nothing is uploaded. -/
def statusCounts (rows : List Record) : List (String × ℕ) :=
  if rows.isEmpty then baseCounts
  else rows.foldl (fun c r => bump c (statusKey r)) baseCounts

/-- Count read-back `counts[k]` (keys are unique, absent reads as 0). -/
def getCount (c : List (String × ℕ)) (k : String) : ℕ :=
  (c.lookup k).getD 0

/-- Embedding of `Explorer.distributionData`: the four named slices of `statusCounts`,
with their chart colors, keeping only strictly positive values. -/
def distributionData (rows : List Record) : List (String × ℕ × String) :=
  if rows.isEmpty then []
  else
    let counts := statusCounts rows
    ([("Confirmed", getCount counts "confirmed", "#22c55e"),
      ("Candidate", getCount counts "candidate", "#06b6d4"),
      ("False Positive", getCount counts "false_positive", "#ef4444"),
      ("Unknown", getCount counts "unknown", "#f59e0b")]).filter
      (fun d => 0 < d.2.1)

/-- The five orbital-period bins of `Explorer.orbitalData`: label, lower
bound, and upper bound (`none` models the `Infinity` upper bound). -/
def orbitalBins : List (String × ℚ × Option ℚ) :=
  [("0-10d", 0, some 10), ("10-50d", 10, some 50), ("50-100d", 50, some 100),
   ("100-200d", 100, some 200), ("200+d", 200, none)]

/-- Test `val >= b.min && val < b.max` for a finite `val` (any finite number is
below the `Infinity` bound of the last bin). -/
def inBin (b : String × ℚ × Option ℚ) (val : ℚ) : Bool :=
  b.2.1 ≤ val && (match b.2.2 with
    | some m => val < m
    | none => true)

/-- Coercion `Number(r.koi_period)` as evaluated by `orbitalData`:
`Number(undefined)` is `NaN`, a stored number converts to itself, and a
stored string goes through `Number` again. -/
def periodNum (r : Record) : JSNum :=
  match getField r "koi_period" with
  | none => .nan
  | some (.num j) => j
  | some (.str s) => jsNumber s

/-- The bin index a finite period value falls in, if any. -/
def binIndexOf (val : ℚ) : Option ℕ :=
  orbitalBins.findIdx? (fun b => inBin b val)

/-- One row's contribution to the histogram counters. -/
def orbitalStep (counts : List (String × ℕ)) (r : Record) : List (String × ℕ) :=
  match periodNum r with
  | .finite val =>
    match binIndexOf val with
    | some idx =>
      (counts.enum).map (fun p => if p.1 = idx then (p.2.1, p.2.2 + 1) else p.2)
    | none => counts
  | _ => counts

/-- Embedding of `Explorer.orbitalData`: per-bin counts of rows whose `koi_period`
coerces to a finite number lying in the bin; empty when nothing is uploaded. -/
def orbitalData (rows : List Record) : List (String × ℕ) :=
  if rows.isEmpty then []
  else rows.foldl orbitalStep (orbitalBins.map (fun b => (b.1, 0)))

/-- The `med` helper of `Explorer.summaryStats`: 0 on the empty list,
otherwise sort ascending and take the middle element (odd length) or the
mean of the two middle elements (even length).  The source sorts a spread
copy (`[...arr].sort`), leaving its input untouched; the embedding is pure. -/
def med (arr : List ℚ) : ℚ :=
  if arr.isEmpty then 0
  else
    let s := arr.insertionSort (· ≤ ·)
    let m := s.length / 2
    if s.length % 2 = 1 then s.getD m 0 else (s.getD (m - 1) 0 + s.getD m 0) / 2

/-- Embedding of `getNum(k)` from `Explorer.summaryStats`: the finite coercions of column
`k` across the uploaded rows. -/
def getNum (rows : List Record) (k : String) : List ℚ :=
  (rows.map (fun r =>
    match getField r k with
    | none => JSNum.nan
    | some (.num j) => j
    | some (.str s) => jsNumber s)).filterMap
    (fun j => match j with
      | .finite q => some q
      | _ => none)

/-- Structure `ModelInfo` from `src/data/models.ts`. -/
structure ModelInfo where
  name : String
  description : String
  yearOfOperation : String
  accuracy : ℚ
  f1Score : ℚ
  logo : String
deriving DecidableEq, Repr

/-- The `dataset` component of a `ModelSpecification`. -/
structure DatasetInfo where
  size : String
  source : String
  features : List String
deriving DecidableEq, Repr

/-- The `metrics` component of a `ModelSpecification`.  The source fields
`precision` and `recall` are reserved words in Lean and carry a `Score`
suffix here. -/
structure Metrics where
  accuracy : ℚ
  precisionScore : ℚ
  recallScore : ℚ
  f1Score : ℚ
deriving DecidableEq, Repr

/-- Structure `ModelSpecification` from `src/data/models.ts`. -/
structure ModelSpecification where
  dataset : DatasetInfo
  architecture : String
  metrics : Metrics
  confusionMatrix : List (List ℕ)
deriving DecidableEq, Repr

/-- The `models` record of `src/data/models.ts`. -/
def models : List (String × ModelInfo) :=
  [("K2",
    { name := "K2"
      description := "Extended Kepler mission observing new fields along the ecliptic plane"
      yearOfOperation := "2014-2018"
      accuracy := 94.2
      f1Score := 0.91
      logo := "🛰️" }),
   ("TESS",
    { name := "TESS"
      description := "Transiting Exoplanet Survey Satellite scanning nearly the entire sky"
      yearOfOperation := "2018-Present"
      accuracy := 96.8
      f1Score := 0.94
      logo := "🔭" }),
   ("Kepler",
    { name := "Kepler"
      description := "Primary mission monitoring 150,000 stars for planetary transits"
      yearOfOperation := "2009-2013"
      accuracy := 93.5
      f1Score := 0.89
      logo := "🌟" })]

/-- The shared six-entry feature list of every mission specification. -/
def specFeatures : List String :=
  ["koi_model_snr (Signal-to-noise ratio)",
   "koi_depth (Transit depth)",
   "koi_prad (Planet radius, Earth radii)",
   "koi_teq (Equilibrium temperature, K)",
   "koi_duration (Transit duration, hours)",
   "koi_period (Orbital period, days)"]

/-- The `modelSpecifications` record of `src/data/models.ts`. -/
def modelSpecifications : List (String × ModelSpecification) :=
  [("K2",
    { dataset :=
        { size := "4,004 rows"
          source := "k2pandc_2025.10.04_00.32.39.csv"
          features := specFeatures }
      architecture := "Random Forest (100 trees) with standardization"
      metrics := { accuracy := 94.2, precisionScore := 0.92, recallScore := 0.90, f1Score := 0.91 }
      confusionMatrix := [[8420, 340], [480, 7760]] }),
   ("TESS",
    { dataset :=
        { size := "7,704 rows"
          source := "TOI_2025.10.04_00.32.31.csv"
          features := specFeatures }
      architecture := "Random Forest (100 trees) with standardization"
      metrics := { accuracy := 96.8, precisionScore := 0.95, recallScore := 0.93, f1Score := 0.94 }
      confusionMatrix := [[9120, 180], [360, 8340]] }),
   ("Kepler",
    { dataset :=
        { size := "9,565 rows"
          source := "cleaned_kepler_train.csv"
          features := specFeatures }
      architecture := "Random Forest (100 trees) with standardization"
      metrics := { accuracy := 93.5, precisionScore := 0.91, recallScore := 0.88, f1Score := 0.89 }
      confusionMatrix := [[17200, 800], [1300, 15700]] })]

/-- Embedding of `Explorer.requiredCols`: the columns an upload must provide. -/
def requiredCols : List String :=
  ["koi_model_snr", "koi_depth", "koi_prad", "koi_teq", "koi_duration",
   "koi_period", "status"]

/-- Column name of an annotated feature entry: the text before the first
space (e.g. `"koi_depth (Transit depth)"` names `koi_depth`). -/
def featureName (s : String) : String :=
  String.mk (s.toList.takeWhile (fun c => c ≠ ' '))

/-- Modelled from the spec: the SchemaRegistry's fixed 6-element ordered
focus-feature set (the backend pipeline is not among the frontend sources);
the order is the backend's `forced` declaration order. -/
def focusFeatures : List String :=
  ["koi_depth", "koi_prad", "koi_period", "koi_teq", "koi_duration",
   "koi_model_snr"]

/-- Sort order of `focusRank`: higher importance first, ties broken by
position in the focus-feature declaration order. -/
def focusOrder (focus : List String) (a b : String × ℚ) : Prop :=
  b.2 < a.2 ∨ (a.2 = b.2 ∧ focus.indexOf a.1 ≤ focus.indexOf b.1)

instance (focus : List String) : DecidableRel (focusOrder focus) := fun a b => by
  unfold focusOrder
  infer_instance

/-- Modelled from the spec: `Explainer.focusRank` (backend, not among the
frontend sources) filters the full ranking to exactly the focus-feature set
and re-sorts by importance descending with declaration-order tie-breaks,
never rescaling a value; it fails with `MissingFocusFeature` when a declared
focus feature is absent from the full ranking. -/
def focusRank (fullRanking : List (String × ℚ)) (focus : List String) :
    Except String (List (String × ℚ)) :=
  if focus.all (fun f => fullRanking.any (fun p => p.1 = f)) then
    .ok ((fullRanking.filter (fun p => focus.contains p.1)).insertionSort
      (focusOrder focus))
  else .error "MissingFocusFeature"

/-- Modelled from the spec: `Evaluator` accuracy (backend, not among the
frontend sources) — the fraction of exact label matches over (true,
predicted) label pairs. -/
def evalAccuracy (pairs : List (String × String)) : ℚ :=
  (pairs.countP (fun p => p.1 = p.2) : ℚ) / (pairs.length : ℚ)

/-- True exactly on cells stored as numbers. -/
def Cell.isNum : Cell → Bool
  | .num _ => true
  | .str _ => false

/-- Raw text of cell `(i, j)` of an upload, when the upload yields rows and
column `j` exists: the `j`-th comma-separated cell of data line `i` (missing
cells read as the empty string, as in the source). -/
def cellRawAt (text : String) (i j : ℕ) : Option (List Char) :=
  let lines := csvLines text
  if lines.length < 2 then none
  else
    ((lines.drop 1)[i]?).bind (fun line =>
      if j < (headersOf lines).length then some ((splitOnChar ',' line).getD j [])
      else none)

/-- Stored value of cell `(i, j)` of an upload: the value component of the
`j`-th assignment of row `i`. -/
def cellValueAt (text : String) (i j : ℕ) : Option Cell :=
  ((handleFileRows text)[i]?).bind (fun r => (r[j]?).map Prod.snd)

/-- Total of an insertion-ordered counter object. -/
def countTotal (c : List (String × ℕ)) : ℕ :=
  (c.map (fun p => p.2)).sum

/-- Total of the rendered distribution slices. -/
def distTotal (rows : List Record) : ℕ :=
  ((distributionData rows).map (fun d => d.2.1)).sum

/-- Total of the orbital-period histogram. -/
def binTotal (data : List (String × ℕ)) : ℕ :=
  (data.map (fun p => p.2)).sum

/-- C4: the fixed focus-feature set has exactly the six agreed features;
every mission specification's feature list names exactly that set, and the
Explorer's required-column list is that set plus the status column. -/
theorem C4_focus_feature_vocabulary :
    focusFeatures.length = 6 ∧ focusFeatures.Nodup ∧
    focusFeatures.Perm ["koi_model_snr", "koi_depth", "koi_prad", "koi_teq",
      "koi_duration", "koi_period"] ∧
    (∀ p ∈ modelSpecifications, (p.2.dataset.features.map featureName).Perm focusFeatures) ∧
    (∀ c ∈ requiredCols, c ∈ focusFeatures ∨ c = "status") ∧
    (∀ c ∈ focusFeatures, c ∈ requiredCols) ∧
    "status" ∈ requiredCols := by
  refine ⟨by decide, by decide, by decide, ?_, by decide, by decide, by decide⟩
  intro p hp
  fin_cases hp <;> decide

/-- Witness for C4 at the K2 specification and the status column. -/
theorem C4_focus_feature_vocabulary_witness :
    ("status" ∈ requiredCols ∧ ("status" ∈ focusFeatures ∨ "status" = "status")) :=
  ⟨by decide, C4_focus_feature_vocabulary.2.2.2.2.1 "status" (by decide)⟩

/-- C2 counterexample: the per-mission accuracy figure exposed for K2 is
94.2, which does not lie in the interval [0, 1]. -/
theorem C2_accuracy_counterexample :
    models.head?.map (fun p => (p.1, p.2.accuracy)) = some ("K2", 471 / 5) ∧
    ¬ ((471 : ℚ) / 5 ≤ 1) := by
  constructor
  · simp only [models, List.head?, Option.map_some]
    norm_num
  · norm_num

/-- C2 amended: evaluation accuracy (fraction of exact matches, modelled
from the spec) lies in [0, 1] on any non-empty test set, while the
per-mission accuracy figures the program exposes are percentages lying in
[0, 100]. -/
theorem C2_accuracy_ranges :
    (∀ pairs : List (String × String), pairs ≠ [] →
      0 ≤ evalAccuracy pairs ∧ evalAccuracy pairs ≤ 1) ∧
    (∀ p ∈ models, 0 ≤ p.2.accuracy ∧ p.2.accuracy ≤ 100) ∧
    (∀ p ∈ modelSpecifications,
      0 ≤ p.2.metrics.accuracy ∧ p.2.metrics.accuracy ≤ 100) := by
  refine ⟨?_, ?_, ?_⟩
  · intro pairs hne
    have hlen : 0 < pairs.length := List.length_pos.mpr hne
    have hlenQ : (0 : ℚ) < (pairs.length : ℚ) := by exact_mod_cast hlen
    have hcount : pairs.countP (fun p => p.1 = p.2) ≤ pairs.length :=
      List.countP_le_length _
    constructor
    · exact div_nonneg (by positivity) (le_of_lt hlenQ)
    · rw [evalAccuracy, div_le_one hlenQ]
      exact_mod_cast hcount
  · intro p hp
    fin_cases hp <;> constructor <;> norm_num [models]
  · intro p hp
    fin_cases hp <;> constructor <;> norm_num [modelSpecifications]

/-- Witness for C2 amended on a concrete two-row test set. -/
theorem C2_accuracy_ranges_witness :
    0 ≤ evalAccuracy [("a", "a"), ("a", "b")] ∧
    evalAccuracy [("a", "a"), ("a", "b")] ≤ 1 :=
  C2_accuracy_ranges.1 [("a", "a"), ("a", "b")] (by decide)

/-- C3: the hard-coded K2 confusion matrix is 2-by-2 (not 3-by-3 over the
three disposition classes) and its entries total 17000, which is not the
0.2 test fraction of the stated 4,004-row dataset. -/
theorem C3_confusion_matrix_bug :
    modelSpecifications.head?.map (fun p => (p.1, p.2.confusionMatrix)) =
      some ("K2", [[8420, 340], [480, 7760]]) ∧
    modelSpecifications.head?.map (fun p => p.2.confusionMatrix.length) = some 2 ∧
    (2 : ℕ) ≠ 3 ∧
    modelSpecifications.head?.map
      (fun p => (p.2.confusionMatrix.map List.sum).sum) = some 17000 ∧
    ((17000 : ℚ) ≠ (2 / 10) * 4004) := by
  refine ⟨?_, ?_, by decide, ?_, by norm_num⟩ <;>
    simp [modelSpecifications]

/-- Reading the `j`-th assignment of a parsed line: present exactly for the
`j`-th header, and its value is `parseCell` of the `j`-th raw cell. -/
theorem parseLine_getElem? (headers : List String) (line : List Char) (j : ℕ) :
    ((parseLine headers line)[j]?).map Prod.snd =
      if j < headers.length then some (parseCell ((splitOnChar ',' line).getD j []))
      else none := by
  unfold parseLine
  rw [List.getElem?_map, List.getElem?_enum]
  by_cases hj : j < headers.length
  · rw [List.getElem?_eq_getElem hj]
    simp [hj]
  · rw [List.getElem?_eq_none (le_of_not_lt hj)]
    simp [hj]

/-- The stored value of a cell is `parseCell` of that cell's raw text. -/
theorem cellValueAt_eq (text : String) (i j : ℕ) :
    cellValueAt text i j = (cellRawAt text i j).map parseCell := by
  unfold cellValueAt cellRawAt handleFileRows
  by_cases h2 : (csvLines text).length < 2
  · simp [h2]
  · simp only [h2, if_false]
    rw [List.getElem?_map]
    cases hline : ((csvLines text).drop 1)[i]? with
    | none => simp
    | some line =>
      simp only [Option.map_some', Option.some_bind]
      rw [parseLine_getElem?]
      by_cases hj : j < (headersOf (csvLines text)).length <;> simp [hj]

/-- C5 (amended): the numeric-versus-string decision for an uploaded CSV
cell is made independently per cell at parse time — the stored value is a
function of that cell's raw text alone, identical across rows, columns and
uploads. -/
theorem C5_per_cell_decision (t1 t2 : String) (i1 j1 i2 j2 : ℕ) (raw : List Char)
    (h1 : cellRawAt t1 i1 j1 = some raw) (h2 : cellRawAt t2 i2 j2 = some raw) :
    cellValueAt t1 i1 j1 = some (parseCell raw) ∧
    cellValueAt t1 i1 j1 = cellValueAt t2 i2 j2 := by
  rw [cellValueAt_eq, cellValueAt_eq, h1, h2]
  exact ⟨rfl, rfl⟩

/-- Witness for C5: the raw text `5` yields the same stored value as cell
(0,0) of one upload and cell (0,1) of another. -/
theorem C5_per_cell_decision_witness :
    cellRawAt "h\n5" 0 0 = some ['5'] ∧
    cellRawAt "a,b\nx,5" 0 1 = some ['5'] ∧
    cellValueAt "h\n5" 0 0 = some (parseCell ['5']) ∧
    cellValueAt "h\n5" 0 0 = cellValueAt "a,b\nx,5" 0 1 :=
  ⟨by decide, by decide,
    (C5_per_cell_decision "h\n5" "a,b\nx,5" 0 0 0 1 ['5'] (by decide) (by decide)).1,
    (C5_per_cell_decision "h\n5" "a,b\nx,5" 0 0 0 1 ['5'] (by decide) (by decide)).2⟩

/-- C5 counterexample: in the upload `h\n5\nx` the single column `h` stores
a number in the first row and a string in the second, so the numeric-versus-
categorical decision is re-made per cell, not frozen per column. -/
theorem C5_per_cell_counterexample :
    (handleFileRows "h\n5\nx").map (fun r => (getField r "h").map Cell.isNum) =
      [some true, some false] := by decide

/-- C6: fewer than two non-empty lines yield an empty dataset; otherwise
parsing produces exactly one record per non-empty data line, in file order,
and every record carries one assignment per header — no record is excluded
for missing or empty field values. -/
theorem C6_one_record_per_line (text : String) :
    ((csvLines text).length < 2 → handleFileRows text = []) ∧
    (2 ≤ (csvLines text).length →
      (handleFileRows text).length = (csvLines text).length - 1 ∧
      (∀ i : ℕ, (handleFileRows text)[i]? =
        (((csvLines text).drop 1)[i]?).map (parseLine (headersOf (csvLines text)))) ∧
      ∀ r ∈ handleFileRows text, r.length = (headersOf (csvLines text)).length) := by
  constructor
  · intro h
    simp [handleFileRows, h]
  · intro h
    have hlt : ¬ (csvLines text).length < 2 := not_lt.mpr h
    unfold handleFileRows
    simp only [hlt, if_false]
    refine ⟨by simp, fun i => List.getElem?_map .., ?_⟩
    intro r hr
    simp only [List.mem_map] at hr
    obtain ⟨line, _, rfl⟩ := hr
    simp [parseLine]

/-- Witness for C6 on a three-line upload whose data rows have empty cells. -/
theorem C6_one_record_per_line_witness :
    2 ≤ (csvLines "a,b\n1,\n,2").length ∧
    (handleFileRows "a,b\n1,\n,2").length = (csvLines "a,b\n1,\n,2").length - 1 :=
  ⟨by decide, ((C6_one_record_per_line "a,b\n1,\n,2").2 (by decide)).1⟩

/-- Status counting factors through the per-row status keys. -/
theorem statusCounts_eq_fold_keys (rows : List Record) :
    statusCounts rows =
      if rows.isEmpty then baseCounts
      else List.foldl bump baseCounts (rows.map statusKey) := by
  rw [statusCounts, List.foldl_map]

/-- C7: the Explorer adds no classification logic of its own — two uploads
with row-by-row identical status values (hence equal length) produce
identical status counts and an identical rendered status distribution,
whatever the other columns hold. -/
theorem C7_status_only_dependence (rows1 rows2 : List Record)
    (h : rows1.map (fun r => getField r "status") =
      rows2.map (fun r => getField r "status")) :
    statusCounts rows1 = statusCounts rows2 ∧
    distributionData rows1 = distributionData rows2 := by
  have hlen : rows1.length = rows2.length := by
    have := congrArg List.length h
    simpa using this
  have hempty : rows1.isEmpty = rows2.isEmpty := by
    cases rows1 <;> cases rows2 <;> simp_all
  have hkeys : rows1.map statusKey = rows2.map statusKey := by
    have := congrArg (List.map (fun c => toLowerStr (statusString c))) h
    simpa [List.map_map, Function.comp, statusKey] using this
  have hcounts : statusCounts rows1 = statusCounts rows2 := by
    rw [statusCounts_eq_fold_keys, statusCounts_eq_fold_keys, hkeys, hempty]
  exact ⟨hcounts, by simp [distributionData, hcounts, hempty]⟩

/-- Witness for C7: two single-row uploads sharing the status value but
differing in every other column. -/
theorem C7_status_only_dependence_witness :
    (handleFileRows "status,x\nconfirmed,1").map (fun r => getField r "status") =
      (handleFileRows "status,y\nconfirmed,99").map (fun r => getField r "status") ∧
    statusCounts (handleFileRows "status,x\nconfirmed,1") =
      statusCounts (handleFileRows "status,y\nconfirmed,99") :=
  ⟨by decide,
    (C7_status_only_dependence (handleFileRows "status,x\nconfirmed,1")
      (handleFileRows "status,y\nconfirmed,99") (by decide)).1⟩

/-- Incrementing a key preserves uniqueness of the counter keys. -/
theorem bump_keys_nodup (c : List (String × ℕ)) (k : String)
    (h : (c.map Prod.fst).Nodup) : ((bump c k).map Prod.fst).Nodup := by
  unfold bump
  by_cases hc : c.any (fun p => p.1 = k)
  · rw [if_pos hc]
    have : (c.map (fun p => if p.1 = k then (p.1, p.2 + 1) else p)).map Prod.fst =
        c.map Prod.fst := by
      rw [List.map_map]
      refine List.map_congr_left ?_
      intro p _
      by_cases hp : p.1 = k <;> simp [hp]
    rw [this]
    exact h
  · rw [if_neg hc]
    have hk : k ∉ c.map Prod.fst := by
      intro hmem
      obtain ⟨p, hp, hpk⟩ := List.mem_map.mp hmem
      exact hc (List.any_eq_true.mpr ⟨p, hp, by simp [hpk]⟩)
    simp only [List.map_append, List.map_cons, List.map_nil]
    exact List.Nodup.append h (List.nodup_singleton k)
      (by simpa [List.disjoint_singleton] using hk)

/-- With unique keys, a present key occurs exactly once. -/
theorem countP_eq_one_of_mem (c : List (String × ℕ)) (k : String)
    (hnd : (c.map Prod.fst).Nodup) (h : c.any (fun p => p.1 = k) = true) :
    c.countP (fun p => p.1 = k) = 1 := by
  induction c with
  | nil => simp at h
  | cons p t ih =>
    simp only [List.map_cons, List.nodup_cons] at hnd
    by_cases hp : p.1 = k
    · have : t.countP (fun q => q.1 = k) = 0 := by
        rw [List.countP_eq_zero]
        intro q hq
        simp only [decide_eq_true_eq]
        intro hqk
        exact hnd.1 (List.mem_map.mpr ⟨q, hq, hqk.trans hp.symm⟩)
      rw [List.countP_cons]
      simp [hp, this]
    · have ht : t.any (fun q => q.1 = k) = true := by
        rcases List.any_eq_true.mp h with ⟨q, hq, hqk⟩
        rcases List.mem_cons.mp hq with rfl | hq'
        · exact absurd (by simpa using hqk) hp
        · exact List.any_eq_true.mpr ⟨q, hq', hqk⟩
      rw [List.countP_cons]
      simp [hp, ih hnd.2 ht]

/-- A bump adds exactly one to the total when the keys are unique. -/
theorem countTotal_bump (c : List (String × ℕ)) (k : String)
    (hnd : (c.map Prod.fst).Nodup) :
    countTotal (bump c k) = countTotal c + 1 := by
  unfold bump
  by_cases hc : c.any (fun p => p.1 = k)
  · rw [if_pos hc]
    have hone := countP_eq_one_of_mem c k hnd hc
    unfold countTotal
    rw [List.map_map]
    induction c with
    | nil => simp at hc
    | cons p t ih =>
      simp only [List.map_cons, List.nodup_cons] at hnd
      by_cases hp : p.1 = k
      · have ht0 : t.countP (fun q => q.1 = k) = 0 := by
          rw [List.countP_eq_zero]
          intro q hq
          simp only [decide_eq_true_eq]
          intro hqk
          exact hnd.1 (List.mem_map.mpr ⟨q, hq, hqk.trans hp.symm⟩)
        have htid : t.map ((fun p => p.2) ∘ fun p => if p.1 = k then (p.1, p.2 + 1) else p) =
            t.map (fun p => p.2) := by
          refine List.map_congr_left ?_
          intro q hq
          have hqk : ¬ q.1 = k := by
            intro hqk
            exact hnd.1 (List.mem_map.mpr ⟨q, hq, hqk.trans hp.symm⟩)
          simp [Function.comp, hqk]
        simp only [List.map_cons, List.sum_cons, Function.comp]
        rw [htid]
        simp [hp]
        omega
      · have ht : t.any (fun q => q.1 = k) = true := by
          rcases List.any_eq_true.mp hc with ⟨q, hq, hqk⟩
          rcases List.mem_cons.mp hq with rfl | hq'
          · exact absurd (by simpa using hqk) hp
          · exact List.any_eq_true.mpr ⟨q, hq', hqk⟩
        have := ih hnd.2 ht (countP_eq_one_of_mem t k hnd.2 ht)
        simp only [List.map_cons, List.sum_cons, Function.comp] at this ⊢
        simp only [hp, if_false]
        omega
  · rw [if_neg hc]
    unfold countTotal
    simp

/-- Folding bumps over a key list adds the list length to the total. -/
theorem countTotal_foldl (ks : List String) :
    ∀ c : List (String × ℕ), (c.map Prod.fst).Nodup →
      countTotal (ks.foldl bump c) = countTotal c + ks.length := by
  induction ks with
  | nil => intro c _; simp
  | cons k t ih =>
    intro c hnd
    rw [List.foldl_cons]
    rw [ih (bump c k) (bump_keys_nodup c k hnd), countTotal_bump c k hnd]
    simp only [List.length_cons]
    omega

/-- Reading any key through the positionwise increment used by `bump`:
the count grows by one exactly when the incremented key is the key read and
it is present. -/
theorem getCount_map_inc (c : List (String × ℕ)) (kb k : String) :
    getCount (c.map (fun p => if p.1 = kb then (p.1, p.2 + 1) else p)) k =
      getCount c k +
        (if kb = k ∧ c.any (fun p => p.1 = k) = true then 1 else 0) := by
  induction c with
  | nil => simp [getCount]
  | cons p t ih =>
    obtain ⟨pk, pv⟩ := p
    by_cases hpk : k = pk
    · have hb : (k == pk) = true := beq_iff_eq.mpr hpk
      have hanyT : (((pk, pv) :: t).any (fun q => q.1 = k)) = true := by
        simp [List.any_cons, hpk.symm]
      by_cases hkb : kb = k
      · have hp1 : pk = kb := (hkb.trans hpk).symm
        unfold getCount
        rw [List.map_cons]
        simp only [if_pos hp1]
        rw [List.lookup_cons, List.lookup_cons, hb]
        simp [hanyT, hkb]
      · have hp1 : ¬ pk = kb := fun hh => hkb (hh.symm.trans hpk.symm)
        unfold getCount
        rw [List.map_cons]
        simp only [if_neg hp1]
        rw [List.lookup_cons, List.lookup_cons, hb]
        simp [hkb]
    · have hb : (k == pk) = false := beq_eq_false_iff_ne.mpr hpk
      have hne : pk ≠ k := fun hh => hpk hh.symm
      unfold getCount at ih ⊢
      have hcond : (kb = k ∧
            (decide (pk = k) || t.any fun p => decide (p.1 = k)) = true) ↔
          (kb = k ∧ (t.any fun p => decide (p.1 = k)) = true) := by
        simp [hne]
      by_cases hp1 : pk = kb
      · rw [List.map_cons]
        simp only [if_pos hp1]
        rw [List.lookup_cons, List.lookup_cons, hb]
        simp only [List.any_cons]
        rw [if_congr hcond rfl rfl]
        exact ih
      · rw [List.map_cons]
        simp only [if_neg hp1]
        rw [List.lookup_cons, List.lookup_cons, hb]
        simp only [List.any_cons]
        rw [if_congr hcond rfl rfl]
        exact ih

/-- Appending a fresh key: reading any key sees the new singleton only when
it asks for that key. -/
theorem getCount_append_single (c : List (String × ℕ)) (kb k : String)
    (h : c.any (fun p => p.1 = kb) = false) :
    getCount (c ++ [(kb, 1)]) k = getCount c k + (if kb = k then 1 else 0) := by
  induction c with
  | nil =>
    by_cases hkb : kb = k
    · have hb : (k == kb) = true := beq_iff_eq.mpr hkb.symm
      simp [getCount, List.lookup_cons, hb, hkb]
    · have hb : (k == kb) = false :=
        beq_eq_false_iff_ne.mpr (fun hh => hkb hh.symm)
      simp [getCount, List.lookup_cons, hb, hkb]
  | cons p t ih =>
    obtain ⟨pk, pv⟩ := p
    simp only [List.any_cons, Bool.or_eq_false_iff] at h
    by_cases hpk : k = pk
    · have hb : (k == pk) = true := beq_iff_eq.mpr hpk
      have hkbk : ¬ kb = k := by
        intro hh
        exact of_decide_eq_false h.1 (by rw [← hpk, hh])
      unfold getCount
      rw [List.cons_append, List.lookup_cons, List.lookup_cons, hb]
      simp [hkbk]
    · have hb : (k == pk) = false := beq_eq_false_iff_ne.mpr hpk
      unfold getCount at ih ⊢
      rw [List.cons_append, List.lookup_cons, List.lookup_cons, hb]
      exact ih h.2

/-- One bump adds one to the bumped key's count and nothing else. -/
theorem getCount_bump (c : List (String × ℕ)) (kb k : String) :
    getCount (bump c kb) k = getCount c k + (if kb = k then 1 else 0) := by
  unfold bump
  by_cases hc : c.any (fun p => p.1 = kb) = true
  · rw [if_pos hc, getCount_map_inc]
    congr 1
    by_cases hkb : kb = k
    · subst hkb
      simp [hc]
    · simp [hkb]
  · rw [if_neg hc]
    exact getCount_append_single c kb k (Bool.eq_false_iff.mpr hc)

/-- Folding bumps over a key list counts occurrences of each key. -/
theorem getCount_foldl (ks : List String) (k : String) :
    ∀ c, getCount (ks.foldl bump c) k =
      getCount c k + ks.countP (fun x => x = k) := by
  induction ks with
  | nil => simp
  | cons kb t ih =>
    intro c
    rw [List.foldl_cons, ih (bump c kb), getCount_bump, List.countP_cons]
    by_cases h : kb = k
    · simp only [h, if_true, List.countP_cons, decide_eq_true_eq, if_pos rfl]
      omega
    · simp only [h, if_false, List.countP_cons]
      simp

/-- Any key of an all-zero counter object reads zero. -/
theorem getCount_all_zero (c : List (String × ℕ)) (k : String)
    (h : ∀ p ∈ c, p.2 = 0) : getCount c k = 0 := by
  induction c with
  | nil => simp [getCount]
  | cons p t ih =>
    obtain ⟨pk, pv⟩ := p
    unfold getCount at ih ⊢
    rw [List.lookup_cons]
    cases hb : (k == pk) with
    | true => simpa using h (pk, pv) (by simp)
    | false => exact ih (fun q hq => h q (List.mem_cons_of_mem _ hq))

/-- Each record is counted under exactly its own status key. -/
theorem getCount_statusCounts (rows : List Record) (k : String) :
    getCount (statusCounts rows) k = rows.countP (fun r => statusKey r = k) := by
  rw [statusCounts_eq_fold_keys]
  by_cases h : rows.isEmpty
  · have hnil : rows = [] := List.isEmpty_iff.mp h
    subst hnil
    simp [getCount_all_zero baseCounts k (by decide)]
  · rw [if_neg h, getCount_foldl, getCount_all_zero baseCounts k (by decide),
      List.countP_map]
    rw [Nat.zero_add]
    rfl

/-- Dropping zero-valued slices does not change a sum. -/
theorem filter_pos_sum (l : List (String × ℕ × String)) :
    ((l.filter (fun d => 0 < d.2.1)).map (fun d => d.2.1)).sum =
      (l.map (fun d => d.2.1)).sum := by
  induction l with
  | nil => rfl
  | cons d t ih =>
    by_cases h : 0 < d.2.1
    · simp [List.filter_cons, h, ih]
    · have h0 : d.2.1 = 0 := Nat.eq_zero_of_not_pos h
      simp [List.filter_cons, h, ih, h0]

/-- The rendered distribution totals the four named status counts. -/
theorem distTotal_eq (rows : List Record) :
    distTotal rows = rows.countP (fun r => statusKey r = "confirmed") +
      rows.countP (fun r => statusKey r = "candidate") +
      rows.countP (fun r => statusKey r = "false_positive") +
      rows.countP (fun r => statusKey r = "unknown") := by
  unfold distTotal distributionData
  by_cases h : rows.isEmpty
  · have hnil : rows = [] := List.isEmpty_iff.mp h
    subst hnil
    simp
  · rw [if_neg h, filter_pos_sum]
    simp only [List.map_cons, List.map_nil, List.sum_cons, List.sum_nil]
    rw [getCount_statusCounts, getCount_statusCounts, getCount_statusCounts,
      getCount_statusCounts]
    omega

/-- A string equals at most one of the four rendered status names. -/
theorem four_indicator (key : String) :
    (if key = "confirmed" then 1 else 0) + (if key = "candidate" then 1 else 0) +
    (if key = "false_positive" then 1 else 0) +
    (if key = "unknown" then 1 else 0) ≤ 1 := by
  by_cases h1 : key = "confirmed"
  · subst h1; decide
  · by_cases h2 : key = "candidate"
    · subst h2; decide
    · by_cases h3 : key = "false_positive"
      · subst h3; decide
      · by_cases h4 : key = "unknown"
        · subst h4; decide
        · simp [h1, h2, h3, h4]

/-- The four named status counts together never exceed the row count. -/
theorem countP_four_le (rows : List Record) :
    rows.countP (fun r => statusKey r = "confirmed") +
      rows.countP (fun r => statusKey r = "candidate") +
      rows.countP (fun r => statusKey r = "false_positive") +
      rows.countP (fun r => statusKey r = "unknown") ≤ rows.length := by
  induction rows with
  | nil => simp
  | cons r t ih =>
    simp only [List.countP_cons, List.length_cons, decide_eq_true_eq]
    have := four_indicator (statusKey r)
    omega

/-- C8: every uploaded record contributes to exactly one status count,
keyed by its lowercased status value (`unknown` when the field is absent);
keys outside the four rendered names are counted under their own key but
omitted from the distribution, whose total therefore never exceeds — and
can fall strictly below — the number of uploaded rows. -/
theorem C8_status_count_exactness :
    (∀ rows : List Record, countTotal (statusCounts rows) = rows.length) ∧
    (∀ rows : List Record, ∀ k : String,
      getCount (statusCounts rows) k =
        rows.countP (fun r => statusKey r = k)) ∧
    (∀ r : Record, getField r "status" = none → statusKey r = "unknown") ∧
    (∀ rows : List Record, distTotal rows ≤ rows.length) ∧
    distTotal (handleFileRows "status\nweird\nconfirmed") = 1 ∧
    (handleFileRows "status\nweird\nconfirmed").length = 2 := by
  refine ⟨?_, ?_, ?_, ?_, by decide, by decide⟩
  · intro rows
    cases rows with
    | nil => decide
    | cons r t =>
      rw [statusCounts_eq_fold_keys, if_neg (by simp),
        countTotal_foldl _ baseCounts (by decide)]
      have h0 : countTotal baseCounts = 0 := by decide
      rw [h0]
      simp
  · exact getCount_statusCounts
  · intro r h
    unfold statusKey
    rw [h]
    decide
  · intro rows
    rw [distTotal_eq]
    exact countP_four_le rows

/-- Witness for C8 at a record with no status field. -/
theorem C8_status_count_exactness_witness :
    getField [("x", Cell.str "1")] "status" = none ∧
    statusKey [("x", Cell.str "1")] = "unknown" :=
  ⟨by decide, C8_status_count_exactness.2.2.1 [("x", Cell.str "1")] (by decide)⟩

/-- Positions below the increment index are untouched. -/
theorem no_inc_from (counts : List (String × ℕ)) (idx : ℕ) :
    ∀ n, idx < n →
      ((counts.enumFrom n).map
        (fun p => if p.1 = idx then (p.2.1, p.2.2 + 1) else p.2)) = counts := by
  induction counts with
  | nil => intro n _; rfl
  | cons p t ih =>
    intro n hn
    rw [List.enumFrom_cons]
    simp only [List.map_cons]
    have hne : ¬ n = idx := by omega
    rw [if_neg hne, ih (n + 1) (by omega)]

/-- Incrementing one valid position adds exactly one to the histogram total. -/
theorem inc_total_from (counts : List (String × ℕ)) :
    ∀ n idx, n ≤ idx → idx < n + counts.length →
      binTotal ((counts.enumFrom n).map
        (fun p => if p.1 = idx then (p.2.1, p.2.2 + 1) else p.2)) =
      binTotal counts + 1 := by
  induction counts with
  | nil =>
    intro n idx h1 h2
    simp at h2
    omega
  | cons p t ih =>
    intro n idx h1 h2
    rw [List.enumFrom_cons]
    simp only [List.map_cons]
    by_cases hn : n = idx
    · rw [if_pos hn, no_inc_from t idx (n + 1) (by omega)]
      unfold binTotal
      simp only [List.map_cons, List.sum_cons]
      omega
    · rw [if_neg hn]
      have hrec := ih (n + 1) idx (by omega) (by simp at h2 ⊢; omega)
      unfold binTotal at hrec ⊢
      simp only [List.map_cons, List.sum_cons] at hrec ⊢
      omega

/-- A found bin index is within the five bins. -/
theorem binIndexOf_lt (q : ℚ) (i : ℕ) (h : binIndexOf q = some i) : i < 5 := by
  unfold binIndexOf at h
  obtain ⟨hlt, -⟩ := List.findIdx?_eq_some_iff_getElem.mp h
  simpa [orbitalBins] using hlt

/-- A found bin index certifies a non-negative period value. -/
theorem binIndexOf_nonneg (q : ℚ) (i : ℕ) (h : binIndexOf q = some i) :
    0 ≤ q := by
  unfold binIndexOf at h
  obtain ⟨hlt, hbin, -⟩ := List.findIdx?_eq_some_iff_getElem.mp h
  have h5 : i < 5 := by simpa [orbitalBins] using hlt
  interval_cases i <;>
    simp only [orbitalBins, inBin, List.getElem_cons_zero, List.getElem_cons_succ,
      Bool.and_eq_true, decide_eq_true_eq] at hbin <;>
    linarith [hbin.1]

/-- Every non-negative value falls in exactly one of the five bins. -/
theorem exists_unique_bin (q : ℚ) (hq : 0 ≤ q) :
    ∃ i : ℕ, i < 5 ∧ inBin (orbitalBins.getD i ("", 0, none)) q = true ∧
      ∀ j, j < 5 → inBin (orbitalBins.getD j ("", 0, none)) q = true → j = i := by
  by_cases h10 : q < 10
  · refine ⟨0, by omega, by simp [orbitalBins, inBin]; exact ⟨hq, h10⟩, ?_⟩
    intro j hj hbin
    interval_cases j <;>
      simp only [orbitalBins, inBin, List.getD_cons_zero, List.getD_cons_succ,
        Bool.and_eq_true, decide_eq_true_eq] at hbin <;>
      first
        | rfl
        | (exfalso; linarith [hbin.1])
  · have h10' : (10 : ℚ) ≤ q := le_of_not_lt h10
    by_cases h50 : q < 50
    · refine ⟨1, by omega, by simp [orbitalBins, inBin]; exact ⟨h10', h50⟩, ?_⟩
      intro j hj hbin
      interval_cases j <;>
        simp only [orbitalBins, inBin, List.getD_cons_zero, List.getD_cons_succ,
          Bool.and_eq_true, decide_eq_true_eq] at hbin <;>
        first
          | rfl
          | (exfalso; rcases hbin with ⟨hb1, hb2⟩; linarith)
    · have h50' : (50 : ℚ) ≤ q := le_of_not_lt h50
      by_cases h100 : q < 100
      · refine ⟨2, by omega, by simp [orbitalBins, inBin]; exact ⟨h50', h100⟩, ?_⟩
        intro j hj hbin
        interval_cases j <;>
          simp only [orbitalBins, inBin, List.getD_cons_zero, List.getD_cons_succ,
            Bool.and_eq_true, decide_eq_true_eq] at hbin <;>
          first
            | rfl
            | (exfalso; rcases hbin with ⟨hb1, hb2⟩; linarith)
      · have h100' : (100 : ℚ) ≤ q := le_of_not_lt h100
        by_cases h200 : q < 200
        · refine ⟨3, by omega, by simp [orbitalBins, inBin]; exact ⟨h100', h200⟩, ?_⟩
          intro j hj hbin
          interval_cases j <;>
            simp only [orbitalBins, inBin, List.getD_cons_zero, List.getD_cons_succ,
              Bool.and_eq_true, decide_eq_true_eq] at hbin <;>
            first
              | rfl
              | (exfalso; rcases hbin with ⟨hb1, hb2⟩; linarith)
        · have h200' : (200 : ℚ) ≤ q := le_of_not_lt h200
          refine ⟨4, by omega, by simp [orbitalBins, inBin]; exact h200', ?_⟩
          intro j hj hbin
          interval_cases j <;>
            simp only [orbitalBins, inBin, List.getD_cons_zero, List.getD_cons_succ,
              Bool.and_eq_true, decide_eq_true_eq] at hbin <;>
            first
              | rfl
              | (exfalso; rcases hbin with ⟨hb1, hb2⟩; linarith)

/-- One histogram step never changes the number of bins. -/
theorem orbitalStep_length (counts : List (String × ℕ)) (r : Record) :
    (orbitalStep counts r).length = counts.length := by
  unfold orbitalStep
  cases hp : periodNum r with
  | finite q =>
    cases hidx : binIndexOf q with
    | some idx => simp [hidx]
    | none => simp [hidx]
  | inf => rfl
  | negInf => rfl
  | nan => rfl

/-- One histogram step adds one to the total exactly when the row's period
coerces to a finite non-negative number. -/
theorem orbitalStep_total (counts : List (String × ℕ)) (r : Record)
    (h5 : counts.length = 5) :
    binTotal (orbitalStep counts r) =
      binTotal counts + (match periodNum r with
        | .finite q => if 0 ≤ q then 1 else 0
        | _ => 0) := by
  unfold orbitalStep
  cases hp : periodNum r with
  | finite q =>
    cases hidx : binIndexOf q with
    | some idx =>
      have hlt : idx < 5 := binIndexOf_lt q idx hidx
      have hq : 0 ≤ q := binIndexOf_nonneg q idx hidx
      simp only [hidx, hq, if_true]
      exact inc_total_from counts 0 idx (by omega) (by omega)
    | none =>
      have hqneg : ¬ 0 ≤ q := by
        intro hq
        obtain ⟨i, hi5, hbin, -⟩ := exists_unique_bin q hq
        have hall := List.findIdx?_eq_none_iff.mp hidx
        have hmem : orbitalBins.getD i ("", 0, none) ∈ orbitalBins := by
          rw [List.getD_eq_getElem orbitalBins _ (by simpa [orbitalBins] using hi5)]
          exact List.getElem_mem _
        have := hall _ hmem
        rw [hbin] at this
        simp at this
      simp [hidx, hqneg]
  | inf => rfl
  | negInf => rfl
  | nan => rfl

/-- Folding histogram steps counts the rows with a finite non-negative
period coercion. -/
theorem orbital_foldl (rows : List Record) :
    ∀ counts : List (String × ℕ), counts.length = 5 →
      binTotal (rows.foldl orbitalStep counts) =
        binTotal counts + rows.countP (fun r =>
          match periodNum r with
          | .finite q => decide (0 ≤ q)
          | _ => false) := by
  induction rows with
  | nil => simp
  | cons r t ih =>
    intro counts h5
    rw [List.foldl_cons, ih _ (by rw [orbitalStep_length]; exact h5),
      orbitalStep_total counts r h5, List.countP_cons]
    cases hp : periodNum r with
    | finite q =>
      by_cases hq : 0 ≤ q
      · simp [hq, hp]
        omega
      · simp [hq, hp]
    | inf => simp
    | negInf => simp
    | nan => simp

/-- C9 counterexample: a row whose `koi_period` cell is empty (a missing
value) is nevertheless counted — `Number('')` is `0`, which lands in the
first bin — so the bins do not count only rows with a present numeric
period. -/
theorem C9_missing_period_counterexample :
    handleFileRows "a,koi_period\nx," =
      [[("a", Cell.str "x"), ("koi_period", Cell.str "")]] ∧
    getField [("a", Cell.str "x"), ("koi_period", Cell.str "")] "koi_period" =
      some (Cell.str "") ∧
    orbitalData (handleFileRows "a,koi_period\nx,") =
      [("0-10d", 1), ("10-50d", 0), ("50-100d", 0), ("100-200d", 0),
        ("200+d", 0)] :=
  ⟨by decide, by decide, by decide⟩

/-- C9 (amended): the five bins are pairwise disjoint and cover `[0, ∞)`;
negative values fall in no bin; the histogram total counts exactly the rows
whose `koi_period` coerces through JS `Number` to a finite non-negative
value — in particular an empty cell coerces to `0` and is counted in the
first bin, rather than in no bin. -/
theorem C9_orbital_histogram :
    (∀ q : ℚ, 0 ≤ q → ∃! i : ℕ, i < 5 ∧
      inBin (orbitalBins.getD i ("", 0, none)) q = true) ∧
    (∀ q : ℚ, q < 0 → binIndexOf q = none) ∧
    (∀ rows : List Record, binTotal (orbitalData rows) =
      rows.countP (fun r =>
        match periodNum r with
        | .finite q => decide (0 ≤ q)
        | _ => false)) ∧
    jsNumber "" = .finite 0 := by
  refine ⟨?_, ?_, ?_, by decide⟩
  · intro q hq
    obtain ⟨i, hi5, hbin, huniq⟩ := exists_unique_bin q hq
    exact ⟨i, ⟨hi5, hbin⟩, fun j hj => huniq j hj.1 hj.2⟩
  · intro q hq
    unfold binIndexOf
    rw [List.findIdx?_eq_none_iff]
    intro b hb
    have hnotle : ¬ (0 : ℚ) ≤ q := not_le.mpr hq
    fin_cases hb <;>
      simp only [inBin, Bool.and_eq_true, decide_eq_true_eq,
        Bool.and_eq_false_iff, decide_eq_false_iff_not] <;>
      (left; intro hle; exact hnotle (by linarith))
  · intro rows
    unfold orbitalData
    by_cases h : rows.isEmpty
    · have hnil : rows = [] := List.isEmpty_iff.mp h
      subst hnil
      simp [binTotal]
    · rw [if_neg h, orbital_foldl rows _ (by decide)]
      have h0 : binTotal (orbitalBins.map (fun b => (b.1, 0))) = 0 := by decide
      rw [h0, Nat.zero_add]

/-- Witness for C9 at the period value 5, which lies in exactly one bin. -/
theorem C9_orbital_histogram_witness :
    ∃! i : ℕ, i < 5 ∧ inBin (orbitalBins.getD i ("", 0, none)) (5 : ℚ) = true :=
  C9_orbital_histogram.1 5 (by norm_num)

/-- C10: `med` returns 0 on the empty list and otherwise the median — the
middle element of any ascending sorted permutation of the input for odd
length, the mean of the two middle elements for even length.  The embedding
is pure: the source sorts a spread copy and leaves its input untouched. -/
theorem C10_med_is_median :
    med ([] : List ℚ) = 0 ∧
    ∀ (l s : List ℚ), l ≠ [] → l.Perm s → s.Sorted (· ≤ ·) →
      med l = (if s.length % 2 = 1 then s.getD (s.length / 2) 0
        else (s.getD (s.length / 2 - 1) 0 + s.getD (s.length / 2) 0) / 2) := by
  constructor
  · rfl
  · intro l s hne hperm hsort
    have hsorted : (l.insertionSort (· ≤ ·)).Sorted (· ≤ ·) :=
      List.sorted_insertionSort (· ≤ ·) l
    have hperm2 : (l.insertionSort (· ≤ ·)).Perm s :=
      (List.perm_insertionSort (· ≤ ·) l).trans hperm
    have heq : l.insertionSort (· ≤ ·) = s :=
      List.eq_of_perm_of_sorted hperm2 hsorted hsort
    unfold med
    rw [if_neg (by simpa [List.isEmpty_iff] using hne)]
    rw [heq]

/-- Witness for C10 on a three-element list and its sorted permutation. -/
theorem C10_med_is_median_witness :
    med ([3, 1, 2] : List ℚ) =
      (if ([1, 2, 3] : List ℚ).length % 2 = 1 then
        ([1, 2, 3] : List ℚ).getD (([1, 2, 3] : List ℚ).length / 2) 0
      else (([1, 2, 3] : List ℚ).getD (([1, 2, 3] : List ℚ).length / 2 - 1) 0 +
        ([1, 2, 3] : List ℚ).getD (([1, 2, 3] : List ℚ).length / 2) 0) / 2) :=
  C10_med_is_median.2 [3, 1, 2] [1, 2, 3] (by decide) (by decide) (by decide)

instance (focus : List String) : IsTrans (String × ℚ) (focusOrder focus) := by
  constructor
  intro a b c hab hbc
  unfold focusOrder at hab hbc ⊢
  rcases hab with hab | ⟨hab1, hab2⟩
  · rcases hbc with hbc | ⟨hbc1, hbc2⟩
    · exact Or.inl (hbc.trans hab)
    · exact Or.inl (by rw [← hbc1]; exact hab)
  · rcases hbc with hbc | ⟨hbc1, hbc2⟩
    · exact Or.inl (by rw [hab1]; exact hbc)
    · exact Or.inr ⟨hab1.trans hbc1, hab2.trans hbc2⟩

instance (focus : List String) : IsTotal (String × ℚ) (focusOrder focus) := by
  constructor
  intro a b
  unfold focusOrder
  rcases lt_trichotomy a.2 b.2 with h | h | h
  · exact Or.inr (Or.inl h)
  · rcases le_total (focus.indexOf a.1) (focus.indexOf b.1) with hi | hi
    · exact Or.inl (Or.inr ⟨h, hi⟩)
    · exact Or.inr (Or.inr ⟨h.symm, hi⟩)
  · exact Or.inl (Or.inl h)

/-- C1: on a full ranking with distinct feature names containing every
focus feature, `focusRank` succeeds and returns exactly the focus features;
every emitted pair appears verbatim in the full ranking (values untouched),
and the emitted importance values are non-increasing. -/
theorem C1_focusRank_exact (full : List (String × ℚ)) (focus : List String)
    (hfull : (full.map Prod.fst).Nodup) (hfocus : focus.Nodup)
    (hsub : ∀ f ∈ focus, f ∈ full.map Prod.fst) :
    ∃ out, focusRank full focus = .ok out ∧
      (out.map Prod.fst).Perm focus ∧
      (∀ p ∈ out, p ∈ full) ∧
      out.Pairwise (fun a b => b.2 ≤ a.2) := by
  have hcond : focus.all (fun f => full.any (fun p => p.1 = f)) = true := by
    rw [List.all_eq_true]
    intro f hf
    rw [List.any_eq_true]
    obtain ⟨p, hp, hpf⟩ := List.mem_map.mp (hsub f hf)
    exact ⟨p, hp, by simp [hpf]⟩
  refine ⟨(full.filter (fun p => focus.contains p.1)).insertionSort
    (focusOrder focus), ?_, ?_, ?_, ?_⟩
  · unfold focusRank
    rw [if_pos hcond]
  · have hperm : ((full.filter (fun p => focus.contains p.1)).insertionSort
        (focusOrder focus)).Perm (full.filter (fun p => focus.contains p.1)) :=
      List.perm_insertionSort _ _
    refine (hperm.map Prod.fst).trans ?_
    have hnd : ((full.filter (fun p => focus.contains p.1)).map Prod.fst).Nodup :=
      List.Nodup.sublist ((List.filter_sublist full).map Prod.fst) hfull
    rw [List.perm_ext_iff_of_nodup hnd hfocus]
    intro a
    constructor
    · intro ha
      obtain ⟨p, hp, hpa⟩ := List.mem_map.mp ha
      have := (List.mem_filter.mp hp).2
      rw [← hpa]
      simpa using this
    · intro ha
      obtain ⟨p, hp, hpa⟩ := List.mem_map.mp (hsub a ha)
      exact List.mem_map.mpr ⟨p, List.mem_filter.mpr ⟨hp, by simp [hpa, ha]⟩, hpa⟩
  · intro p hp
    have hmem := (List.perm_insertionSort (focusOrder focus)
      (full.filter (fun p => focus.contains p.1))).mem_iff.mp hp
    exact (List.mem_filter.mp hmem).1
  · have hs : ((full.filter (fun p => focus.contains p.1)).insertionSort
        (focusOrder focus)).Sorted (focusOrder focus) :=
      List.sorted_insertionSort _ _
    refine hs.imp ?_
    intro a b hab
    rcases hab with hab | ⟨hab, -⟩
    · exact le_of_lt hab
    · exact le_of_eq hab.symm

/-- Witness for C1 on the specification's own scenario: focus `{A, B}` over
the full ranking `[(A, 0.4), (C, 0.3), (B, 0.1)]`. -/
theorem C1_focusRank_exact_witness :
    ∃ out, focusRank [("A", mkRat 2 5), ("C", mkRat 3 10), ("B", mkRat 1 10)]
        ["A", "B"] = .ok out ∧
      (out.map Prod.fst).Perm ["A", "B"] ∧
      (∀ p ∈ out,
        p ∈ [("A", mkRat 2 5), ("C", mkRat 3 10), ("B", mkRat 1 10)]) ∧
      out.Pairwise (fun a b => b.2 ≤ a.2) :=
  C1_focusRank_exact [("A", mkRat 2 5), ("C", mkRat 3 10), ("B", mkRat 1 10)]
    ["A", "B"] (by decide) (by decide) (by decide)

end Exoscope
